import Mathlib

/-!
Verification of the distance-transform code in
`src/grid_math_dev/LB_colloid_dev.py` (class `Gridarray` and its helper
methods).  The Python code works on numpy float arrays; scanlines are embedded
as `List ℚ` (the program never puts a nan into a distance line) and the vector
scanlines as `List (Option ℚ)`, where `none` models the floating nan sentinel
that `_create_vector_array` writes at solid cells.  Fallible code paths
(the `try/except IndexError` block of `_distance_gridx` and the unguarded
`boundary[1]` access of `_distance_gridy`) are embedded in the `Option` monad:
`none` models the abnormal termination path (`sys.exit` resp. an uncaught
IndexError).

Correspondence to the source, method by method:

* `rplcIdx`, `forceSolid`, `correct` — the boundary-correction block at the
  top of `_distance_gridx` (lines 85-90) and `_distance_gridy` (lines
  134-139).  `np.linspace(0, 1, gridsplit)[gridsplit/2:]` is a list of floats
  `k/(gridsplit-1)` for `k = gridsplit/2 .. gridsplit-1`; using a float as a
  numpy index truncates it toward zero, so `line[i] = 1.` writes at the
  truncated index `⌊k/(gridsplit-1)⌋`, which is `0` for `k < gridsplit-1` and
  `1` for `k = gridsplit-1`.  `rplcIdx` reproduces exactly those truncated
  indices with natural division.  The two masked writes `line[line < 1] = 0`
  and `line[line > 1] = 0` (the y variant applies them in the opposite order,
  with the same result) combine to: every value other than exactly `1`
  becomes `0`.
* `boundaries` — `np.where(np.abs(np.diff(line)) >= 1)[0]` (lines 93, 142).
* `ascList`, `runLine`, `runVec` — the run fills `np.arange(1, gap+1)*gridres`
  with the mirrored copy and the sign fills (lines 100-120, 157-177).
* `scanLoop` — the loop `for i in range(1, len(boundary), 2)` of
  `_distance_gridx` (called with start index 1, near sign -1, far sign 1,
  lbound offset 0: `lbound = boundary[i-1]`, `rbound = boundary[i] + 1`) and
  the loop `for i in range(3, len(boundary), 2)` of `_distance_gridy`
  (start index 3, near sign 1, far sign -1, lbound offset 1:
  `lbound = boundary[i-1] + 1`).  The two element accesses `boundary[i]` and
  `boundary[i-1]` are embedded as `Option`-valued lookups so that the
  IndexError path of the surrounding `try` block is represented faithfully;
  the structural `fuel` argument (always called with `fuel = bs.length`,
  which bounds the number of iterations) only makes the recursion structural
  and never runs out before the loop exits, as proved in `scanLoop_eq_foldl`.
* `distance_gridx`, `gridyCore`, `distance_gridy` — the two scanline
  transforms.  `gridyCore` is the part of `_distance_gridy` after the
  correction block (lines 141-189): the guarded top run (`boundary[1]` can
  raise), the internal loop, and the bottom run `boundary[-1]+1 .. ylen`.
* `mkVimg` — `_create_vector_array` (lines 50-59) for one array: a copy of
  the image where every cell equal to the solid value `True == 1.0` becomes
  nan (`none`).
* `consInto`, `transposeL` — the numpy transpose `.T` (lines 45, 56, 76):
  a structurally recursive matrix transpose of a list of rows, which on the
  rectangular arrays numpy handles (every numpy 2-d array is rectangular)
  is the usual transpose.
* `arrx`, `arry`, `gridarrayRun` — `_arrx`, `_arry` and `Gridarray.__init__`
  (lines 45-76).  The Python `_arrx` writes each transformed row back into
  the caller array `arr` in place, so after construction the contents of the
  caller array equal `gridx`; the record field `inputAfter` holds those final
  contents.  `yarr = np.copy(arr.T)` and the vector seeds are taken at lines
  45-46, before `_arrx` mutates `arr` at line 47, so the y pass and the
  vector seeds see the original image values; `gridarrayRun` mirrors that
  statement order.
-/

/-- Contiguous slice `l[a:b]` of a list (numpy half-open slice). -/
def sliceOf (l : List α) (a b : ℕ) : List α :=
  (l.drop a).take (b - a)

/-- Numpy slice assignment `l[lb : lb + vals.length] = vals`. -/
def setSlice (l : List α) (lb : ℕ) (vals : List α) : List α :=
  l.take lb ++ vals ++ l.drop (lb + vals.length)

/-- Option-valued map over a list, propagating the first failure; used to
model per-scanline loops whose body can terminate the program. -/
def mapMO (f : α → Option β) : List α → Option (List β)
  | [] => some []
  | x :: xs =>
    match f x, mapMO f xs with
    | some y, some ys => some (y :: ys)
    | _, _ => none

/-- The truncated indices written by the correction block: numpy evaluates
`line[i] = 1.` for each float `i` in `np.linspace(0, 1, gridsplit)[gridsplit/2:]`,
truncating `i = k/(gridsplit-1)` to the integer index `k / (gridsplit-1)`. -/
def rplcIdx (s : ℕ) : List ℕ :=
  ((List.range s).drop (s / 2)).map (fun k => k / (s - 1))

/-- The write loop `for i in rplc: line[i] = 1.`.  Every scanline of the
program has length at least 2, so the writes at the truncated indices 0 and
1 are in bounds; `List.set` ignores out-of-range indices, so shorter
scanlines (where numpy would raise at this write, before the `try` block of
the pair loop is entered) are outside the modelled domain. -/
def forceSolid (s : ℕ) (line : List ℚ) : List ℚ :=
  (rplcIdx s).foldl (fun l i => l.set i 1) line

/-- Boundary correction of one scanline: the forced writes followed by the
two masked writes, which jointly snap every value other than exactly `1`
to `0`. -/
def correct (s : ℕ) (line : List ℚ) : List ℚ :=
  (forceSolid s line).map (fun v => if v = 1 then 1 else 0)

/-- Absolute value on ℚ, written out so that it evaluates inside the
kernel; `absQ q = |q|`. -/
def absQ (q : ℚ) : ℚ :=
  if q < 0 then -q else q

/-- Boundary crossings `np.where(np.abs(np.diff(line)) >= 1)[0]`: the indices
`i` with `|line[i+1] - line[i]| ≥ 1`. -/
def boundaries (line : List ℚ) : List ℕ :=
  (List.range (line.length - 1)).filter
    (fun i => decide ((1 : ℚ) ≤ absQ (line.getD (i + 1) 0 - line.getD i 0)))

/-- `np.arange(1, g+1) * gridres`: ascending distances `r, 2r, …, g·r`. -/
def ascList (g : ℕ) (r : ℚ) : List ℚ :=
  (List.range g).map (fun j => ((j + 1 : ℕ) : ℚ) * r)

/-- `np.arange(g, 0, -1) * gridres`: descending distances `g·r, …, 2r, r`. -/
def descList (g : ℕ) (r : ℚ) : List ℚ :=
  (List.range g).map (fun j => ((g - j : ℕ) : ℚ) * r)

/-- Distance fill for one enclosed run of length `gap`: for even `gap` the
ascending half followed by its mirror, for odd `gap` the ascending half, the
extra middle cell `(gap/2 + 1)·r`, then the mirror of the ascending half. -/
def runLine (gap : ℕ) (r : ℚ) : List ℚ :=
  if gap % 2 = 0 then
    ascList (gap / 2) r ++ (ascList (gap / 2) r).reverse
  else
    (ascList (gap / 2) r ++ [((gap / 2 : ℕ) + 1 : ℚ) * r]) ++ (ascList (gap / 2) r).reverse

/-- Direction fill for one enclosed run: `gap/2` copies of the near sign `a`
(one more when `gap` is odd) followed by `gap/2` copies of the far sign `b`. -/
def runVec (a b : ℚ) (gap : ℕ) : List (Option ℚ) :=
  if gap % 2 = 0 then
    List.replicate (gap / 2) (some a) ++ List.replicate (gap / 2) (some b)
  else
    List.replicate (gap / 2 + 1) (some a) ++ List.replicate (gap / 2) (some b)

/-- One iteration of the run-fill loop: write the distance fill and the
direction fill over `[p.1, p.2)` of the line and vector line. -/
def gstep (r a b : ℚ) (acc : List ℚ × List (Option ℚ)) (p : ℕ × ℕ) :
    List ℚ × List (Option ℚ) :=
  (setSlice acc.1 p.1 (runLine (p.2 - p.1) r),
   setSlice acc.2 p.1 (runVec a b (p.2 - p.1)))

/-- The list of `(lbound, rbound)` ranges visited by the loops: consecutive
crossing pairs `(bs[2k] + off, bs[2k+1] + 1)`, a trailing unpaired crossing
being dropped. -/
def gpairs (off : ℕ) : List ℕ → List (ℕ × ℕ)
  | b0 :: b1 :: rest => (b0 + off, b1 + 1) :: gpairs off rest
  | _ => []

/-- The run-fill loop `for i in range(start, len(boundary), 2)` with the two
lookups `boundary[i]`, `boundary[i-1]` embedded as fallible accesses (the
IndexError path of the `try` block is `none`).  `fuel` is a structural bound
on the number of iterations; every call site passes `bs.length`, which is
never exhausted (`scanLoop_eq_foldl`). -/
def scanLoop (r a b : ℚ) (off : ℕ) (bs : List ℕ) :
    ℕ → ℕ → List ℚ × List (Option ℚ) → Option (List ℚ × List (Option ℚ))
  | 0, i, acc => if i < bs.length then none else some acc
  | fuel + 1, i, acc =>
    if i < bs.length then
      match bs[i]?, bs[i - 1]? with
      | some bi, some bim =>
        scanLoop r a b off bs fuel (i + 2) (gstep r a b acc (bim + off, bi + 1))
      | _, _ => none
    else some acc

/-- `_distance_gridx`: boundary correction, crossing detection, then the run
loop from index 1 with `lbound = boundary[i-1]`, near sign `-1`, far sign
`1`.  `none` is the `except IndexError: sys.exit()` path. -/
def distance_gridx (r : ℚ) (s : ℕ) (line : List ℚ) (vline : List (Option ℚ)) :
    Option (List ℚ × List (Option ℚ)) :=
  scanLoop r (-1) 1 0 (boundaries (correct s line)) (boundaries (correct s line)).length 1
    (correct s line, vline)

/-- Lines 141-189 of `_distance_gridy` (everything after the correction
block): on an empty crossing list the pair is returned untouched; otherwise
the top run `[0, boundary[1]+1)` is filled descending with sign `-1`
(`boundary[1]` raises an uncaught IndexError — `none` — when only one
crossing exists), the internal loop runs from index 3 with
`lbound = boundary[i-1] + 1`, near sign `1`, far sign `-1`, and the bottom
run `[boundary[-1]+1, ylen)` is filled ascending with sign `1`. -/
def gridyCore (r : ℚ) (ylen : ℕ) (line : List ℚ) (vline : List (Option ℚ)) :
    Option (List ℚ × List (Option ℚ)) :=
  match boundaries line with
  | [] => some (line, vline)
  | b0 :: tail =>
    match (b0 :: tail)[1]? with
    | none => none
    | some b1 =>
      match scanLoop r 1 (-1) 1 (b0 :: tail) (b0 :: tail).length 3
          (setSlice line 0 (descList (b1 + 1) r),
           setSlice vline 0 (List.replicate (b1 + 1) (some (-1)))) with
      | none => none
      | some acc2 =>
        some (setSlice acc2.1 (tail.getLastD b0 + 1)
                (ascList (ylen - (tail.getLastD b0 + 1)) r),
              setSlice acc2.2 (tail.getLastD b0 + 1)
                (List.replicate (ylen - (tail.getLastD b0 + 1)) (some 1)))

/-- `_distance_gridy`: boundary correction followed by `gridyCore`. -/
def distance_gridy (r : ℚ) (s ylen : ℕ) (line : List ℚ) (vline : List (Option ℚ)) :
    Option (List ℚ × List (Option ℚ)) :=
  gridyCore r ylen (correct s line) vline

/-- `_create_vector_array` for one image: a copy where every cell equal to
the solid value (`True == 1.0`) becomes nan (`none`). -/
def mkVimg (img : List (List ℚ)) : List (List (Option ℚ)) :=
  img.map (fun row => row.map (fun v => if v = 1 then none else some v))

/-- `_arrx`: apply `_distance_gridx` to every row; the transformed rows are
written back into the caller array, and the pair of row lists is returned. -/
def arrx (arr : List (List ℚ)) (varr : List (List (Option ℚ))) (r : ℚ) (s : ℕ) :
    Option (List (List ℚ) × List (List (Option ℚ))) :=
  (mapMO (fun p => distance_gridx r s p.1 p.2) (arr.zip varr)).map
    (fun rows => (rows.map Prod.fst, rows.map Prod.snd))

/-- One column step of the matrix transpose: cons each element of `row`
onto the corresponding row of `m`, surplus elements opening fresh singleton
rows. -/
def consInto : List α → List (List α) → List (List α)
  | [], m => m
  | a :: as, [] => [a] :: consInto as []
  | a :: as, mrow :: m => (a :: mrow) :: consInto as m

/-- Matrix transpose of a list of rows: the numpy transpose `.T` used at
lines 45, 56 and 76.  On the rectangular arrays numpy handles (every numpy
2-d array is rectangular) this is the usual matrix transpose; it is written
structurally so that proofs and kernel evaluation are direct. -/
def transposeL : List (List α) → List (List α)
  | [] => []
  | row :: rest => consInto row (transposeL rest)

/-- `_arry`: apply `_distance_gridy` to every row of the transposed image
(`ylen = len(yarr[0])`) and transpose the results back. -/
def arry (yarr : List (List ℚ)) (varr : List (List (Option ℚ))) (r : ℚ) (s : ℕ) :
    Option (List (List ℚ) × List (List (Option ℚ))) :=
  (mapMO (fun p => distance_gridy r s (yarr.headD []).length p.1 p.2) (yarr.zip varr)).map
    (fun rows => (transposeL (rows.map Prod.fst), transposeL (rows.map Prod.snd)))

/-- The four outputs of `Gridarray.__init__` together with the final
contents of the caller input array (which `_arrx` mutates in place). -/
structure Gridarray where
  gridx : List (List ℚ)
  gridy : List (List ℚ)
  vector_x : List (List (Option ℚ))
  vector_y : List (List (Option ℚ))
  inputAfter : List (List ℚ)
  deriving DecidableEq, Repr

/-- `Gridarray.__init__` in source statement order: the y copy
`yarr = np.copy(arr.T)` and the vector seeds are taken from the original
image first; then `_arrx` transforms the rows (mutating the caller array,
whose final contents therefore equal `gridx`); then `_arry` transforms the
pristine transposed copy. -/
def gridarrayRun (arr : List (List ℚ)) (r : ℚ) (s : ℕ) : Option Gridarray :=
  match arrx arr (mkVimg arr) r s with
  | none => none
  | some p1 =>
    match arry (transposeL arr) (mkVimg (transposeL arr)) r s with
    | none => none
    | some p2 => some ⟨p1.1, p2.1, p1.2, p2.2, p1.1⟩

/-- The y pass as a function of the original image alone: exactly the
arguments `Gridarray.__init__` hands to `_arry`. -/
def yPass (arr : List (List ℚ)) (r : ℚ) (s : ℕ) :
    Option (List (List ℚ) × List (List (Option ℚ))) :=
  arry (transposeL arr) (mkVimg (transposeL arr)) r s

/-- Modelled from the words of the specification (section 4.1), for
comparison with the code only: for each original cell the first half of its
GridSplit sub-samples (cell-local indices `0 .. GridSplit/2 - 1`) is forced
to the solid value 1, and every other value not exactly 0 or 1 is snapped
to 0. -/
def correctClaimed (s : ℕ) (line : List ℚ) : List ℚ :=
  line.mapIdx (fun j v => if j % s < s / 2 then 1 else if v = 0 ∨ v = 1 then v else 0)

/-! ### List-level helper lemmas -/

theorem drop_getElem? (l : List α) (i j : ℕ) : (l.drop i)[j]? = l[i + j]? := by
  induction i generalizing l with
  | zero => simp
  | succ n ih =>
    cases l with
    | nil => simp
    | cons a t => simp [Nat.succ_add, ih]

theorem take_getElem? (l : List α) (n j : ℕ) :
    (l.take n)[j]? = if j < n then l[j]? else none := by
  split
  · exact List.getElem?_take_of_lt (by assumption)
  · refine List.getElem?_eq_none ?_
    have := l.length_take n
    omega

theorem sliceOf_getElem? (l : List α) (a b j : ℕ) :
    (sliceOf l a b)[j]? = if j < b - a then l[a + j]? else none := by
  rw [sliceOf, take_getElem?]
  split
  · exact drop_getElem? l a j
  · rfl

theorem setSlice_length (l : List α) (lb : ℕ) (vals : List α)
    (h : lb + vals.length ≤ l.length) : (setSlice l lb vals).length = l.length := by
  simp only [setSlice, List.length_append, List.length_take, List.length_drop]
  omega

theorem setSlice_getElem? (l : List α) (lb : ℕ) (vals : List α)
    (h : lb + vals.length ≤ l.length) (j : ℕ) :
    (setSlice l lb vals)[j]? =
      if j < lb then l[j]? else if j < lb + vals.length then vals[j - lb]? else l[j]? := by
  have hA : (l.take lb).length = lb := by
    simp only [List.length_take]
    omega
  have hAB : (l.take lb ++ vals).length = lb + vals.length := by
    rw [List.length_append, hA]
  by_cases h1 : j < lb
  · rw [setSlice, List.getElem?_append_left (by rw [hAB]; omega),
      List.getElem?_append_left (by rw [hA]; exact h1),
      List.getElem?_take_of_lt h1, if_pos h1]
  · by_cases h2 : j < lb + vals.length
    · rw [setSlice, List.getElem?_append_left (by rw [hAB]; omega),
        List.getElem?_append_right (by rw [hA]; omega), hA,
        if_neg h1, if_pos h2]
    · rw [setSlice, List.getElem?_append_right (by rw [hAB]; omega), hAB,
        drop_getElem?]
      have he : lb + vals.length + (j - (lb + vals.length)) = j := by omega
      rw [he, if_neg h1, if_neg h2]

theorem sliceOf_setSlice (l : List α) (lb : ℕ) (vals : List α)
    (h : lb + vals.length ≤ l.length) :
    sliceOf (setSlice l lb vals) lb (lb + vals.length) = vals := by
  apply List.ext_getElem?
  intro n
  rw [sliceOf_getElem?]
  split
  · rw [setSlice_getElem? l lb vals h, if_neg (by omega), if_pos (by omega)]
    congr 1
    omega
  · exact (List.getElem?_eq_none (by omega)).symm

theorem sliceOf_congr (l₁ l₂ : List α) (a b : ℕ)
    (h : ∀ j, a ≤ j → j < b → l₁[j]? = l₂[j]?) : sliceOf l₁ a b = sliceOf l₂ a b := by
  apply List.ext_getElem?
  intro n
  rw [sliceOf_getElem?, sliceOf_getElem?]
  split
  · exact h (a + n) (by omega) (by omega)
  · rfl

theorem ascList_length (g : ℕ) (r : ℚ) : (ascList g r).length = g := by
  rw [ascList, List.length_map, List.length_range]

theorem descList_length (g : ℕ) (r : ℚ) : (descList g r).length = g := by
  rw [descList, List.length_map, List.length_range]

theorem runLine_length (gap : ℕ) (r : ℚ) : (runLine gap r).length = gap := by
  unfold runLine
  split <;>
    simp only [List.length_append, List.length_reverse, ascList_length,
      List.length_singleton] <;>
    omega

theorem runVec_length (a b : ℚ) (gap : ℕ) : (runVec a b gap).length = gap := by
  unfold runVec
  split <;> simp <;> omega

theorem runVec_mem (a b : ℚ) (gap : ℕ) (x : Option ℚ) (hx : x ∈ runVec a b gap) :
    x = some a ∨ x = some b := by
  unfold runVec at hx
  split at hx <;> rw [List.mem_append] at hx <;>
    rcases hx with hx | hx <;> simp [List.eq_of_mem_replicate hx]

/-! ### The run ranges visited by the fill loops -/

/-- Well-formedness of a list of `(lbound, rbound)` ranges over a line of
length `n`: each range is nonempty and in bounds, and all later ranges start
at or after the current right bound. -/
def RangesOK (n : ℕ) : List (ℕ × ℕ) → Prop
  | [] => True
  | p :: rest => p.1 < p.2 ∧ p.2 ≤ n ∧ (∀ q ∈ rest, p.2 ≤ q.1) ∧ RangesOK n rest

theorem gpairs_fst_mem (off : ℕ) : ∀ (bs : List ℕ) (q : ℕ × ℕ),
    q ∈ gpairs off bs → ∃ c, c ∈ bs ∧ q.1 = c + off
  | [], q, hq => by simp [gpairs] at hq
  | [b], q, hq => by simp [gpairs] at hq
  | b0 :: b1 :: rest, q, hq => by
    rw [gpairs, List.mem_cons] at hq
    rcases hq with h | h
    · exact ⟨b0, by simp, by simp [h]⟩
    · obtain ⟨c, hc, he⟩ := gpairs_fst_mem off rest q h
      exact ⟨c, by simp [hc], he⟩

theorem rangesOK_gpairs (n off : ℕ) (hoff : off ≤ 1) :
    ∀ bs : List ℕ, List.Pairwise (· < ·) bs → (∀ x ∈ bs, x + 1 < n) →
      RangesOK n (gpairs off bs)
  | [], _, _ => by simp [gpairs, RangesOK]
  | [b], _, _ => by simp [gpairs, RangesOK]
  | b0 :: b1 :: rest, hs, hb => by
    obtain ⟨h0, hs1⟩ := List.pairwise_cons.mp hs
    obtain ⟨h1, hs2⟩ := List.pairwise_cons.mp hs1
    have h01 : b0 < b1 := h0 b1 (by simp)
    refine ⟨by simp; omega, ?_, ?_, ?_⟩
    · have := hb b1 (by simp)
      simp
      omega
    · intro q hq
      obtain ⟨c, hc, he⟩ := gpairs_fst_mem off rest q hq
      have := h1 c hc
      simp [he]
      omega
    · exact rangesOK_gpairs n off hoff rest hs2 (fun x hx => hb x (by simp [hx]))

theorem boundaries_sorted (line : List ℚ) : List.Pairwise (· < ·) (boundaries line) :=
  List.Pairwise.filter _ (List.pairwise_lt_range _)

theorem boundaries_bound (line : List ℚ) (x : ℕ) (hx : x ∈ boundaries line) :
    x + 1 < line.length := by
  rw [boundaries, List.mem_filter, List.mem_range] at hx
  omega

/-! ### The fill loops as folds over the crossing pairs -/

theorem scanLoop_stop (r a b : ℚ) (off : ℕ) (bs : List ℕ) (fuel i : ℕ)
    (acc : List ℚ × List (Option ℚ)) (h : ¬ i < bs.length) :
    scanLoop r a b off bs fuel i acc = some acc := by
  cases fuel with
  | zero => rw [scanLoop, if_neg h]
  | succ f => rw [scanLoop, if_neg h]

theorem scanLoop_go (r a b : ℚ) (off : ℕ) (bs : List ℕ) (f i : ℕ)
    (acc : List ℚ × List (Option ℚ)) (hi : i < bs.length) (hi1 : i - 1 < bs.length) :
    scanLoop r a b off bs (f + 1) i acc =
      scanLoop r a b off bs f (i + 2) (gstep r a b acc (bs[i - 1] + off, bs[i] + 1)) := by
  rw [scanLoop, if_pos hi, List.getElem?_eq_getElem hi, List.getElem?_eq_getElem hi1]

theorem gpairs_short (off : ℕ) (bs : List ℕ) (h : bs.length ≤ 1) : gpairs off bs = [] :=
  match bs, h with
  | [], _ => rfl
  | [_], _ => rfl

theorem scanLoop_eq_foldl (r a b : ℚ) (off : ℕ) (bs : List ℕ) :
    ∀ (fuel i : ℕ) (acc : List ℚ × List (Option ℚ)),
      1 ≤ i → bs.length ≤ i + 2 * fuel →
      scanLoop r a b off bs fuel i acc =
        some ((gpairs off (bs.drop (i - 1))).foldl (gstep r a b) acc) := by
  intro fuel
  induction fuel with
  | zero =>
    intro i acc h1 h2
    rw [scanLoop_stop r a b off bs 0 i acc (by omega)]
    rw [gpairs_short off _ (by rw [List.length_drop]; omega), List.foldl_nil]
  | succ f ih =>
    intro i acc h1 h2
    by_cases hi : i < bs.length
    · have hi1 : i - 1 < bs.length := by omega
      rw [scanLoop_go r a b off bs f i acc hi hi1,
        ih (i + 2) _ (by omega) (by omega)]
      have hd1 : bs.drop (i - 1) = bs[i - 1] :: bs.drop i := by
        have := List.drop_eq_getElem_cons hi1
        rwa [Nat.sub_add_cancel h1] at this
      have hd2 : bs.drop i = bs[i] :: bs.drop (i + 1) := List.drop_eq_getElem_cons hi
      rw [hd1, hd2, gpairs]
      have : i + 2 - 1 = i + 1 := by omega
      rw [this, List.foldl_cons]
    · rw [scanLoop_stop r a b off bs (f + 1) i acc hi]
      rw [gpairs_short off _ (by rw [List.length_drop]; omega), List.foldl_nil]

/-- Behaviour of the fill fold on a well-formed range list: lengths are
preserved, positions outside every range keep their values, and each range
holds its distance and direction fill in the final state. -/
theorem foldl_gstep_spec (r a b : ℚ) :
    ∀ (ps : List (ℕ × ℕ)) (acc : List ℚ × List (Option ℚ)),
      RangesOK acc.1.length ps → acc.2.length = acc.1.length →
      ((ps.foldl (gstep r a b) acc).1.length = acc.1.length ∧
       (ps.foldl (gstep r a b) acc).2.length = acc.2.length) ∧
      (∀ j, (∀ p ∈ ps, j < p.1 ∨ p.2 ≤ j) →
        (ps.foldl (gstep r a b) acc).1[j]? = acc.1[j]? ∧
        (ps.foldl (gstep r a b) acc).2[j]? = acc.2[j]?) ∧
      (∀ p ∈ ps,
        sliceOf (ps.foldl (gstep r a b) acc).1 p.1 p.2 = runLine (p.2 - p.1) r ∧
        sliceOf (ps.foldl (gstep r a b) acc).2 p.1 p.2 = runVec a b (p.2 - p.1))
  | [], acc, _, _ => by
    exact ⟨⟨rfl, rfl⟩, fun j _ => ⟨rfl, rfl⟩, fun p hp => absurd hp (by simp)⟩
  | p :: rest, acc, hok, hlen => by
    obtain ⟨hlt, hle, hsep, hrest⟩ := hok
    have h1 : p.1 + (runLine (p.2 - p.1) r).length ≤ acc.1.length := by
      rw [runLine_length]; omega
    have h2 : p.1 + (runVec a b (p.2 - p.1)).length ≤ acc.2.length := by
      rw [runVec_length]; omega
    have hstep1 : (gstep r a b acc p).1.length = acc.1.length :=
      setSlice_length _ _ _ h1
    have hstep2 : (gstep r a b acc p).2.length = acc.2.length :=
      setSlice_length _ _ _ h2
    have hok' : RangesOK (gstep r a b acc p).1.length rest := by
      rw [hstep1]; exact hrest
    have hlen' : (gstep r a b acc p).2.length = (gstep r a b acc p).1.length := by
      rw [hstep1, hstep2, hlen]
    obtain ⟨⟨ihl1, ihl2⟩, ihout, ihmem⟩ := foldl_gstep_spec r a b rest (gstep r a b acc p) hok' hlen'
    rw [List.foldl_cons]
    refine ⟨⟨by rw [ihl1, hstep1], by rw [ihl2, hstep2]⟩, ?_, ?_⟩
    · intro j hj
      have hout := ihout j (fun q hq => hj q (by simp [hq]))
      have hjp := hj p (by simp)
      constructor
      · rw [hout.1]
        show (setSlice acc.1 p.1 (runLine (p.2 - p.1) r))[j]? = acc.1[j]?
        rw [setSlice_getElem? _ _ _ h1]
        rcases hjp with h | h
        · rw [if_pos h]
        · rw [if_neg (by omega), if_neg (by rw [runLine_length]; omega)]
      · rw [hout.2]
        show (setSlice acc.2 p.1 (runVec a b (p.2 - p.1)))[j]? = acc.2[j]?
        rw [setSlice_getElem? _ _ _ h2]
        rcases hjp with h | h
        · rw [if_pos h]
        · rw [if_neg (by omega), if_neg (by rw [runVec_length]; omega)]
    · intro q hq
      rcases List.mem_cons.mp hq with hq | hq
      · subst hq
        have hs1 : sliceOf (gstep r a b acc q).1 q.1 q.2 = runLine (q.2 - q.1) r := by
          show sliceOf (setSlice acc.1 q.1 (runLine (q.2 - q.1) r)) q.1 q.2 =
            runLine (q.2 - q.1) r
          have h3 := sliceOf_setSlice acc.1 q.1 (runLine (q.2 - q.1) r) h1
          rwa [runLine_length, Nat.add_sub_cancel' (le_of_lt hlt)] at h3
        have hs2 : sliceOf (gstep r a b acc q).2 q.1 q.2 = runVec a b (q.2 - q.1) := by
          show sliceOf (setSlice acc.2 q.1 (runVec a b (q.2 - q.1))) q.1 q.2 =
            runVec a b (q.2 - q.1)
          have h3 := sliceOf_setSlice acc.2 q.1 (runVec a b (q.2 - q.1)) h2
          rwa [runVec_length, Nat.add_sub_cancel' (le_of_lt hlt)] at h3
        constructor
        · rw [← hs1]
          apply sliceOf_congr
          intro j hj1 hj2
          exact (ihout j (fun p2 hp2 => Or.inl (by have := hsep p2 hp2; omega))).1
        · rw [← hs2]
          apply sliceOf_congr
          intro j hj1 hj2
          exact (ihout j (fun p2 hp2 => Or.inl (by have := hsep p2 hp2; omega))).2
      · exact ihmem q hq

/-! ### Properties of the boundary correction -/

theorem foldl_set_length : ∀ (idxs : List ℕ) (l : List ℚ),
    (idxs.foldl (fun acc i => acc.set i 1) l).length = l.length
  | [], _ => rfl
  | i :: idxs, l => by
    rw [List.foldl_cons, foldl_set_length idxs, List.length_set]

theorem forceSolid_length (s : ℕ) (line : List ℚ) :
    (forceSolid s line).length = line.length :=
  foldl_set_length _ _

theorem correct_length (s : ℕ) (line : List ℚ) :
    (correct s line).length = line.length := by
  rw [correct, List.length_map, forceSolid_length]

theorem foldl_set_getElem? : ∀ (idxs : List ℕ) (l : List ℚ) (j : ℕ),
    (idxs.foldl (fun acc i => acc.set i 1) l)[j]? =
      if j ∈ idxs ∧ j < l.length then some 1 else l[j]?
  | [], l, j => by simp
  | i :: idxs, l, j => by
    rw [List.foldl_cons, foldl_set_getElem? idxs, List.length_set]
    by_cases h1 : j ∈ idxs ∧ j < l.length
    · rw [if_pos h1, if_pos ⟨by simp [h1.1], h1.2⟩]
    · rw [if_neg h1]
      by_cases h2 : j = i ∧ j < l.length
      · rw [if_pos ⟨by simp [h2.1], h2.2⟩]
        obtain ⟨he, hl2⟩ := h2
        subst he
        rw [List.getElem?_set_self hl2]
      · rw [if_neg (by
          rintro ⟨hm, hl⟩
          rcases List.mem_cons.mp hm with h | h
          · exact h2 ⟨h, hl⟩
          · exact h1 ⟨h, hl⟩)]
        by_cases he : j = i
        · have hl : ¬ j < l.length := fun hl => h2 ⟨he, hl⟩
          subst he
          rw [List.set_eq_of_length_le (by omega)]
        · rw [List.getElem?_set_ne (fun hh => he hh.symm)]

theorem correct_getElem? (s : ℕ) (l : List ℚ) (j : ℕ) :
    (correct s l)[j]? =
      if j ∈ rplcIdx s ∧ j < l.length then some 1
      else (l[j]?).map (fun v => if v = 1 then 1 else 0) := by
  rw [correct, List.getElem?_map, forceSolid, foldl_set_getElem?]
  split
  · simp
  · rfl

theorem correct_preserves_one (s : ℕ) (l : List ℚ) (j : ℕ)
    (h : l[j]? = some 1) : (correct s l)[j]? = some 1 := by
  rw [correct_getElem?, h]
  split
  · rfl
  · simp

theorem correct_binary (s : ℕ) (line : List ℚ) (v : ℚ) (hv : v ∈ correct s line) :
    v = 0 ∨ v = 1 := by
  rw [correct, List.mem_map] at hv
  obtain ⟨w, _, rfl⟩ := hv
  split
  · right; rfl
  · left; rfl

theorem mem_drop_range (m n a : ℕ) : a ∈ (List.range n).drop m ↔ m ≤ a ∧ a < n := by
  rw [List.mem_iff_getElem?]
  constructor
  · rintro ⟨i, hi⟩
    rw [drop_getElem?] at hi
    by_cases h : m + i < n
    · rw [List.getElem?_range h] at hi
      obtain rfl := Option.some.inj hi
      omega
    · rw [List.getElem?_eq_none (by rw [List.length_range]; omega)] at hi
      exact absurd hi (by simp)
  · rintro ⟨h1, h2⟩
    refine ⟨a - m, ?_⟩
    rw [drop_getElem?]
    have he : m + (a - m) = a := by omega
    rw [he, List.getElem?_range h2]

theorem rplcIdx_small (s : ℕ) (hs : 3 ≤ s) : ∀ i ∈ rplcIdx s, i = 0 ∨ i = 1 := by
  intro i hi
  rw [rplcIdx, List.mem_map] at hi
  obtain ⟨k, hk, rfl⟩ := hi
  rw [mem_drop_range] at hk
  by_cases h : k = s - 1
  · right
    rw [h]
    exact Nat.div_self (by omega)
  · left
    exact Nat.div_eq_of_lt (by omega)

theorem rplcIdx_zero_mem (s : ℕ) (hs : 3 ≤ s) : 0 ∈ rplcIdx s := by
  rw [rplcIdx, List.mem_map]
  refine ⟨s / 2, (mem_drop_range _ _ _).mpr ⟨le_refl _, by omega⟩, ?_⟩
  exact Nat.div_eq_of_lt (by omega)

theorem rplcIdx_one_mem (s : ℕ) (hs : 3 ≤ s) : 1 ∈ rplcIdx s := by
  rw [rplcIdx, List.mem_map]
  refine ⟨s - 1, (mem_drop_range _ _ _).mpr ⟨by omega, by omega⟩, ?_⟩
  exact Nat.div_self (by omega)

/-! ### The x transform as a fold -/

theorem distance_gridx_eq (r : ℚ) (s : ℕ) (line : List ℚ) (vline : List (Option ℚ)) :
    distance_gridx r s line vline =
      some ((gpairs 0 (boundaries (correct s line))).foldl (gstep r (-1) 1)
        (correct s line, vline)) := by
  rw [distance_gridx]
  have h := scanLoop_eq_foldl r (-1) 1 0 (boundaries (correct s line))
    (boundaries (correct s line)).length 1 (correct s line, vline) (by omega) (by omega)
  rwa [Nat.sub_self, List.drop_zero] at h

theorem rangesOK_x (s : ℕ) (line : List ℚ) :
    RangesOK (correct s line).length (gpairs 0 (boundaries (correct s line))) :=
  rangesOK_gpairs _ 0 (by omega) _ (boundaries_sorted _)
    (fun x hx => boundaries_bound _ x hx)

/-! ### Claim C1: even-length runs of the x pass -/

/-- C1: for every corrected x-pass row, every enclosed run delimited by a
consecutive crossing pair `(lbound, rbound)` of even length writes the
ascending distances `1..gap/2` (times GridResolution) followed by their
mirrored descending copy, and the directions `gap/2` times `-1` followed by
`gap/2` times `+1`, over `[lbound, rbound)`. -/
theorem xpass_even_run (r : ℚ) (s : ℕ) (l : List ℚ) (vl : List (Option ℚ))
    (hv : vl.length = l.length) (lb rb : ℕ)
    (hp : (lb, rb) ∈ gpairs 0 (boundaries (correct s l)))
    (heven : (rb - lb) % 2 = 0) :
    ∃ ln vn, distance_gridx r s l vl = some (ln, vn) ∧
      sliceOf ln lb rb =
        ascList ((rb - lb) / 2) r ++ (ascList ((rb - lb) / 2) r).reverse ∧
      sliceOf vn lb rb =
        List.replicate ((rb - lb) / 2) (some (-1)) ++
          List.replicate ((rb - lb) / 2) (some 1) := by
  obtain ⟨_, _, hmem⟩ := foldl_gstep_spec r (-1) 1 (gpairs 0 (boundaries (correct s l)))
    (correct s l, vl) (rangesOK_x s l) (by rw [correct_length]; exact hv)
  obtain ⟨hs1, hs2⟩ := hmem (lb, rb) hp
  refine ⟨_, _, by rw [distance_gridx_eq], ?_, ?_⟩
  · rw [hs1, runLine, if_pos heven]
  · rw [hs2, runVec, if_pos heven]

theorem xpass_even_run_witness :
    (([none, some 0, some 0, none] : List (Option ℚ)).length =
      ([1, 0, 0, 1] : List ℚ).length) ∧
    ((1, 3) ∈ gpairs 0 (boundaries (correct 2 [1, 0, 0, 1]))) ∧
    ∃ ln vn, distance_gridx ((1 : ℚ)/2) 2 [1, 0, 0, 1] [none, some 0, some 0, none] =
        some (ln, vn) ∧
      sliceOf ln 1 3 =
        ascList ((3 - 1) / 2) ((1 : ℚ)/2) ++ (ascList ((3 - 1) / 2) ((1 : ℚ)/2)).reverse ∧
      sliceOf vn 1 3 =
        List.replicate ((3 - 1) / 2) (some (-1)) ++ List.replicate ((3 - 1) / 2) (some 1) :=
  ⟨by decide, by with_unfolding_all decide,
    xpass_even_run ((1 : ℚ)/2) 2 [1, 0, 0, 1] [none, some 0, some 0, none]
      (by decide) 1 3 (by with_unfolding_all decide) (by decide)⟩

/-! ### Claim C2: odd-length runs of the x pass -/

/-- C2: for every corrected x-pass row, every enclosed run delimited by a
consecutive crossing pair of odd length puts the single extra cell on the
near (left) side, valued `(gap/2 + 1)` times GridResolution with direction
`-1`: the left half is the ascending `1..gap/2` plus that extra cell, all
with direction `-1`, and the right half is the descending mirror with
direction `+1`. -/
theorem xpass_odd_run (r : ℚ) (s : ℕ) (l : List ℚ) (vl : List (Option ℚ))
    (hv : vl.length = l.length) (lb rb : ℕ)
    (hp : (lb, rb) ∈ gpairs 0 (boundaries (correct s l)))
    (hodd : (rb - lb) % 2 = 1) :
    ∃ ln vn, distance_gridx r s l vl = some (ln, vn) ∧
      sliceOf ln lb rb =
        (ascList ((rb - lb) / 2) r ++ [(((rb - lb) / 2 : ℕ) + 1 : ℚ) * r]) ++
          (ascList ((rb - lb) / 2) r).reverse ∧
      sliceOf vn lb rb =
        List.replicate ((rb - lb) / 2 + 1) (some (-1)) ++
          List.replicate ((rb - lb) / 2) (some 1) := by
  obtain ⟨_, _, hmem⟩ := foldl_gstep_spec r (-1) 1 (gpairs 0 (boundaries (correct s l)))
    (correct s l, vl) (rangesOK_x s l) (by rw [correct_length]; exact hv)
  obtain ⟨hs1, hs2⟩ := hmem (lb, rb) hp
  refine ⟨_, _, by rw [distance_gridx_eq], ?_, ?_⟩
  · rw [hs1, runLine, if_neg (by omega)]
  · rw [hs2, runVec, if_neg (by omega)]

theorem xpass_odd_run_witness :
    (([none, some 0, some 0, some 0, none] : List (Option ℚ)).length =
      ([1, 0, 0, 0, 1] : List ℚ).length) ∧
    ((1, 4) ∈ gpairs 0 (boundaries (correct 2 [1, 0, 0, 0, 1]))) ∧
    ∃ ln vn, distance_gridx ((1 : ℚ)/2) 2 [1, 0, 0, 0, 1]
        [none, some 0, some 0, some 0, none] = some (ln, vn) ∧
      sliceOf ln 1 4 =
        (ascList ((4 - 1) / 2) ((1 : ℚ)/2) ++ [(((4 - 1) / 2 : ℕ) + 1 : ℚ) * ((1 : ℚ)/2)]) ++
          (ascList ((4 - 1) / 2) ((1 : ℚ)/2)).reverse ∧
      sliceOf vn 1 4 =
        List.replicate ((4 - 1) / 2 + 1) (some (-1)) ++
          List.replicate ((4 - 1) / 2) (some 1) :=
  ⟨by decide, by with_unfolding_all decide,
    xpass_odd_run ((1 : ℚ)/2) 2 [1, 0, 0, 0, 1] [none, some 0, some 0, some 0, none]
      (by decide) 1 4 (by with_unfolding_all decide) (by decide)⟩

/-! ### Claim C4: odd crossing counts in the x pass do not abort -/

/-- C4 (against the claim): the x transform never reaches its percolation
abort.  The pair loop `for i in range(1, len(boundary), 2)` only reads
`boundary[i]` and `boundary[i-1]` with `i < len(boundary)`, so the
IndexError the `except` block waits for cannot be raised; a row whose
crossing list has odd cardinality silently ignores the trailing unpaired
crossing.  Concretely, the corrected row `[1, 1, 0]` has the single crossing
`[1]` (odd cardinality) and is returned unchanged, with no error. -/
theorem xpass_never_aborts :
    (∀ (r : ℚ) (s : ℕ) (l : List ℚ) (vl : List (Option ℚ)),
        (distance_gridx r s l vl).isSome = true) ∧
    (boundaries (correct 2 [1, 1, 0])).length = 1 ∧
    distance_gridx ((1 : ℚ)/2) 2 [1, 1, 0] [none, none, some 0] =
      some ([1, 1, 0], [none, none, some 0]) := by
  refine ⟨?_, by with_unfolding_all decide, by with_unfolding_all decide⟩
  intro r s l vl
  rw [distance_gridx_eq]
  rfl

/-! ### Claim C5: the boundary corrector -/

/-- C5 counterexample: on the scanline `[0, 0, 0, 0]` with GridSplit 2 the
code forces only scanline index 1 (the truncated float indices), producing
`[0, 1, 0, 0]`, while the claimed per-cell policy (first half of each
original cell of GridSplit sub-samples forced solid) would produce
`[1, 0, 1, 0]`. -/
theorem boundary_corrector_claim_false :
    correct 2 [0, 0, 0, 0] = [0, 1, 0, 0] ∧
    correctClaimed 2 [0, 0, 0, 0] = [1, 0, 1, 0] ∧
    correct 2 [0, 0, 0, 0] ≠ correctClaimed 2 [0, 0, 0, 0] := by
  decide

/-- C5 amended: for GridSplit at least 3, the corrector forces scanline
indices 0 and 1 (the truncated values of the float linspace indices) to the
solid value 1, maps every other cell to 1 if it equals 1 and to 0 otherwise,
and returns a scanline whose values lie exactly in 0 and 1. -/
theorem boundary_corrector_amended (s : ℕ) (l : List ℚ) (hs : 3 ≤ s)
    (hl : 2 ≤ l.length) :
    (correct s l).length = l.length ∧
    (correct s l)[0]? = some 1 ∧ (correct s l)[1]? = some 1 ∧
    (∀ j, 2 ≤ j → (correct s l)[j]? = (l[j]?).map (fun v => if v = 1 then 1 else 0)) ∧
    (∀ v ∈ correct s l, v = 0 ∨ v = 1) := by
  refine ⟨correct_length s l, ?_, ?_, ?_, fun v hv => correct_binary s l v hv⟩
  · rw [correct_getElem?, if_pos ⟨rplcIdx_zero_mem s hs, by omega⟩]
  · rw [correct_getElem?, if_pos ⟨rplcIdx_one_mem s hs, by omega⟩]
  · intro j hj
    rw [correct_getElem?,
      if_neg (by rintro ⟨hm, _⟩; rcases rplcIdx_small s hs j hm with h | h <;> omega)]

theorem boundary_corrector_amended_witness :
    (correct 4 [0, 0, 1, 0, 0, 1]).length = ([0, 0, 1, 0, 0, 1] : List ℚ).length ∧
    (correct 4 [0, 0, 1, 0, 0, 1])[0]? = some 1 ∧
    (correct 4 [0, 0, 1, 0, 0, 1])[1]? = some 1 :=
  ⟨(boundary_corrector_amended 4 [0, 0, 1, 0, 0, 1] (by decide) (by decide)).1,
   (boundary_corrector_amended 4 [0, 0, 1, 0, 0, 1] (by decide) (by decide)).2.1,
   (boundary_corrector_amended 4 [0, 0, 1, 0, 0, 1] (by decide) (by decide)).2.2.1⟩

/-! ### Claim C6: single-crossing columns crash the y pass -/

/-- C6 (against the claim): a y-pass column whose corrected crossing list
has exactly one element does not raise a typed error; the code reads
`boundary[1]`, which does not exist, and dies with an uncaught IndexError,
modelled as `none`. -/
theorem ypass_single_crossing_crash (r : ℚ) (s ylen : ℕ) (l : List ℚ)
    (vl : List (Option ℚ)) (h : (boundaries (correct s l)).length = 1) :
    distance_gridy r s ylen l vl = none := by
  obtain ⟨b, hb⟩ := List.length_eq_one.mp h
  rw [distance_gridy, gridyCore, hb]
  rfl

theorem ypass_single_crossing_crash_witness :
    (boundaries (correct 2 [1, 1, 1, 0])).length = 1 ∧
    distance_gridy ((1 : ℚ)/2) 2 4 [1, 1, 1, 0] [none, none, none, some 0] = none :=
  ⟨by with_unfolding_all decide,
   ypass_single_crossing_crash _ 2 4 _ _ (by with_unfolding_all decide)⟩

/-! ### Claim C7: no-crossing columns are untouched -/

/-- C7: a y-pass column whose boundary-crossing list is empty is returned
with both the distance line and the vector line entirely unmodified: the
`else: pass` branch of `_distance_gridy`. -/
theorem ypass_no_crossings_untouched (r : ℚ) (ylen : ℕ) (l : List ℚ)
    (vl : List (Option ℚ)) (h : boundaries l = []) :
    gridyCore r ylen l vl = some (l, vl) := by
  rw [gridyCore, h]

theorem ypass_no_crossings_untouched_witness :
    boundaries ([1, 1, 1] : List ℚ) = [] ∧
    gridyCore ((1 : ℚ)/2) 3 [1, 1, 1] [none, none, none] =
      some ([1, 1, 1], [none, none, none]) :=
  ⟨by with_unfolding_all decide,
   ypass_no_crossings_untouched _ 3 _ _ (by with_unfolding_all decide)⟩

/-! ### Claim C3: the open top and bottom runs of the y pass -/

theorem gridyCore_cons_eq (r : ℚ) (ylen : ℕ) (l : List ℚ) (vl : List (Option ℚ))
    (b0 b1 : ℕ) (rest : List ℕ) (hbs : boundaries l = b0 :: b1 :: rest) :
    gridyCore r ylen l vl =
      match scanLoop r 1 (-1) 1 (b0 :: b1 :: rest) (b0 :: b1 :: rest).length 3
          (setSlice l 0 (descList (b1 + 1) r),
           setSlice vl 0 (List.replicate (b1 + 1) (some (-1)))) with
      | none => none
      | some acc2 =>
        some (setSlice acc2.1 ((b1 :: rest).getLastD b0 + 1)
                (ascList (ylen - ((b1 :: rest).getLastD b0 + 1)) r),
              setSlice acc2.2 ((b1 :: rest).getLastD b0 + 1)
                (List.replicate (ylen - ((b1 :: rest).getLastD b0 + 1)) (some 1))) := by
  rw [gridyCore, hbs]
  simp only [List.getElem?_cons_succ, List.getElem?_cons_zero]

/-- C3: a y-pass column with at least two crossings gets the open top run
`[0, boundary[1] + 1)` filled with strictly descending distances from
`(boundary[1] + 1)` times GridResolution down to GridResolution, direction
uniformly `-1`, and the open bottom run `[boundary[-1] + 1, ylen)` filled
with strictly ascending distances from GridResolution up to `gap` times
GridResolution, direction uniformly `+1`. -/
theorem ypass_open_runs (r : ℚ) (ylen : ℕ) (l : List ℚ) (vl : List (Option ℚ))
    (hv : vl.length = l.length) (hy : ylen = l.length) (b1 blast : ℕ)
    (hb1 : (boundaries l)[1]? = some b1)
    (hbl : (boundaries l).getLast? = some blast) :
    ∃ ln vn, gridyCore r ylen l vl = some (ln, vn) ∧
      ln.length = l.length ∧ vn.length = l.length ∧
      sliceOf ln 0 (b1 + 1) = descList (b1 + 1) r ∧
      sliceOf vn 0 (b1 + 1) = List.replicate (b1 + 1) (some (-1)) ∧
      sliceOf ln (blast + 1) ylen = ascList (ylen - (blast + 1)) r ∧
      sliceOf vn (blast + 1) ylen = List.replicate (ylen - (blast + 1)) (some 1) := by
  rcases hbs : boundaries l with _ | ⟨b0, tail⟩
  · rw [hbs] at hb1
    exact absurd hb1 (by simp)
  rcases tail with _ | ⟨b1x, rest⟩
  · rw [hbs] at hb1
    exact absurd hb1 (by simp)
  rw [hbs] at hb1 hbl
  have hb1x : b1 = b1x := by simpa using hb1.symm
  subst hb1x
  rw [List.getLast?_cons_cons] at hbl
  have hsor : List.Pairwise (· < ·) (b0 :: b1 :: rest) := by
    rw [← hbs]
    exact boundaries_sorted l
  have hbound : ∀ x ∈ b0 :: b1 :: rest, x + 1 < l.length := by
    intro x hx
    apply boundaries_bound l
    rw [hbs]
    exact hx
  obtain ⟨hh0, hsor1⟩ := List.pairwise_cons.mp hsor
  obtain ⟨hh1, hsor2⟩ := List.pairwise_cons.mp hsor1
  have hlastD : (b1 :: rest).getLastD b0 = blast := by
    rw [List.getLastD_eq_getLast?, hbl, Option.getD_some]
  have hblmem : blast ∈ b1 :: rest := List.mem_of_getLast?_eq_some hbl
  have hb1blast : b1 ≤ blast := by
    rcases List.mem_cons.mp hblmem with h | h
    · omega
    · have := hh1 blast h
      omega
  have hblb : blast + 1 < l.length := hbound blast (by simp [hblmem])
  have hb1b : b1 + 1 < l.length := hbound b1 (by simp)
  -- the state after the top-run writes
  have hL1len : (setSlice l 0 (descList (b1 + 1) r)).length = l.length :=
    setSlice_length _ _ _ (by rw [descList_length]; omega)
  have hV1len : (setSlice vl 0 (List.replicate (b1 + 1) (some (-1) : Option ℚ))).length =
      vl.length :=
    setSlice_length _ _ _ (by rw [List.length_replicate]; omega)
  -- the internal loop as a fold
  have hrun := scanLoop_eq_foldl r 1 (-1) 1 (b0 :: b1 :: rest) (b0 :: b1 :: rest).length 3
    (setSlice l 0 (descList (b1 + 1) r),
     setSlice vl 0 (List.replicate (b1 + 1) (some (-1)))) (by omega) (by omega)
  have h32 : (3 : ℕ) - 1 = 2 := rfl
  rw [h32, List.drop_succ_cons, List.drop_succ_cons, List.drop_zero] at hrun
  have hok : RangesOK (setSlice l 0 (descList (b1 + 1) r)).length (gpairs 1 rest) := by
    rw [hL1len]
    exact rangesOK_gpairs _ 1 (by omega) rest hsor2
      (fun x hx => hbound x (by simp [hx]))
  obtain ⟨⟨hlen1, hlen2⟩, hout, _⟩ := foldl_gstep_spec r 1 (-1) (gpairs 1 rest)
    (setSlice l 0 (descList (b1 + 1) r),
     setSlice vl 0 (List.replicate (b1 + 1) (some (-1)))) hok
    (by rw [hL1len, hV1len, hv])
  -- name the fold result
  set F := (gpairs 1 rest).foldl (gstep r 1 (-1))
    (setSlice l 0 (descList (b1 + 1) r),
     setSlice vl 0 (List.replicate (b1 + 1) (some (-1)))) with hF
  have hF1len : F.1.length = l.length := by rw [hlen1, hL1len]
  have hF2len : F.2.length = l.length := by rw [hlen2, hV1len, hv]
  have hinb1 : blast + 1 + (ascList (ylen - (blast + 1)) r).length ≤ F.1.length := by
    rw [ascList_length, hF1len]
    omega
  have hinb2 : blast + 1 + (List.replicate (ylen - (blast + 1)) (some 1 : Option ℚ)).length ≤
      F.2.length := by
    rw [List.length_replicate, hF2len]
    omega
  -- every internal run starts strictly after the top run
  have hafter : ∀ p ∈ gpairs 1 rest, ∀ j, j < b1 + 1 → j < p.1 ∨ p.2 ≤ j := by
    intro p hp j hj
    obtain ⟨c, hc, he⟩ := gpairs_fst_mem 1 rest p hp
    have := hh1 c hc
    omega
  refine ⟨setSlice F.1 (blast + 1) (ascList (ylen - (blast + 1)) r),
          setSlice F.2 (blast + 1) (List.replicate (ylen - (blast + 1)) (some 1)), ?_,
          ?_, ?_, ?_, ?_, ?_, ?_⟩
  · rw [gridyCore_cons_eq r ylen l vl b0 b1 rest hbs, hlastD, hrun]
  · rw [setSlice_length _ _ _ hinb1, hF1len]
  · rw [setSlice_length _ _ _ hinb2, hF2len]
  · have hstep : sliceOf (setSlice F.1 (blast + 1) (ascList (ylen - (blast + 1)) r))
        0 (b1 + 1) = sliceOf (setSlice l 0 (descList (b1 + 1) r)) 0 (b1 + 1) := by
      apply sliceOf_congr
      intro j hj0 hj1
      rw [setSlice_getElem? _ _ _ hinb1, if_pos (by omega)]
      exact (hout j (fun p hp => hafter p hp j hj1)).1
    rw [hstep]
    have h6 := sliceOf_setSlice l 0 (descList (b1 + 1) r)
      (by rw [descList_length]; omega)
    rwa [descList_length, Nat.zero_add] at h6
  · have hstep : sliceOf (setSlice F.2 (blast + 1)
        (List.replicate (ylen - (blast + 1)) (some 1))) 0 (b1 + 1) =
        sliceOf (setSlice vl 0 (List.replicate (b1 + 1) (some (-1)))) 0 (b1 + 1) := by
      apply sliceOf_congr
      intro j hj0 hj1
      rw [setSlice_getElem? _ _ _ hinb2, if_pos (by omega)]
      exact (hout j (fun p hp => hafter p hp j hj1)).2
    rw [hstep]
    have h6 := sliceOf_setSlice vl 0 (List.replicate (b1 + 1) (some (-1) : Option ℚ))
      (by rw [List.length_replicate]; omega)
    rwa [List.length_replicate, Nat.zero_add] at h6
  · have h6 := sliceOf_setSlice F.1 (blast + 1) (ascList (ylen - (blast + 1)) r) hinb1
    rw [ascList_length] at h6
    have he : blast + 1 + (ylen - (blast + 1)) = ylen := by omega
    rwa [he] at h6
  · have h6 := sliceOf_setSlice F.2 (blast + 1)
      (List.replicate (ylen - (blast + 1)) (some 1 : Option ℚ)) hinb2
    rw [List.length_replicate] at h6
    have he : blast + 1 + (ylen - (blast + 1)) = ylen := by omega
    rwa [he] at h6

theorem ypass_open_runs_witness :
    (boundaries [0, 0, 1, 0, 0])[1]? = some 2 ∧
    (boundaries [0, 0, 1, 0, 0]).getLast? = some 2 ∧
    ∃ ln vn, gridyCore ((1 : ℚ)/2) 5 [0, 0, 1, 0, 0]
        [some 0, some 0, none, some 0, some 0] = some (ln, vn) ∧
      ln.length = ([0, 0, 1, 0, 0] : List ℚ).length ∧
      vn.length = ([0, 0, 1, 0, 0] : List ℚ).length ∧
      sliceOf ln 0 (2 + 1) = descList (2 + 1) ((1 : ℚ)/2) ∧
      sliceOf vn 0 (2 + 1) = List.replicate (2 + 1) (some (-1)) ∧
      sliceOf ln (2 + 1) 5 = ascList (5 - (2 + 1)) ((1 : ℚ)/2) ∧
      sliceOf vn (2 + 1) 5 = List.replicate (5 - (2 + 1)) (some 1) :=
  ⟨by with_unfolding_all decide, by with_unfolding_all decide,
    ypass_open_runs ((1 : ℚ)/2) 5 [0, 0, 1, 0, 0] [some 0, some 0, none, some 0, some 0]
      (by decide) (by decide) 2 2
      (by with_unfolding_all decide) (by with_unfolding_all decide)⟩

/-! ### Grid assembly: inversion lemmas -/

theorem mapMO_cons_inv {α β : Type} (f : α → Option β) (x : α) (xs : List α)
    (out : List β) (h : mapMO f (x :: xs) = some out) :
    ∃ y ys, f x = some y ∧ mapMO f xs = some ys ∧ out = y :: ys := by
  rw [mapMO] at h
  rcases hfx : f x with _ | y
  · rw [hfx] at h
    simp at h
  rcases hm : mapMO f xs with _ | ys
  · rw [hfx, hm] at h
    simp at h
  · rw [hfx, hm] at h
    simp at h
    exact ⟨y, ys, rfl, rfl, h.symm⟩

theorem mapMO_length {α β : Type} (f : α → Option β) :
    ∀ (l : List α) (out : List β), mapMO f l = some out → out.length = l.length
  | [], out, h => by
    rw [mapMO] at h
    simp at h
    subst h
    rfl
  | x :: xs, out, h => by
    obtain ⟨y, ys, _, hm, rfl⟩ := mapMO_cons_inv f x xs out h
    simp [mapMO_length f xs ys hm]

theorem mapMO_getElem? {α β : Type} (f : α → Option β) :
    ∀ (l : List α) (out : List β), mapMO f l = some out →
      ∀ (i : ℕ) (x : α), l[i]? = some x → ∃ y, out[i]? = some y ∧ f x = some y
  | [], _, _, i, x, hx => by simp at hx
  | a :: xs, out, h, i, x, hx => by
    obtain ⟨y, ys, hfa, hm, rfl⟩ := mapMO_cons_inv f a xs out h
    cases i with
    | zero =>
      rw [List.getElem?_cons_zero] at hx
      obtain rfl := Option.some.inj hx
      exact ⟨y, by simp, hfa⟩
    | succ n =>
      rw [List.getElem?_cons_succ] at hx
      obtain ⟨z, hz1, hz2⟩ := mapMO_getElem? f xs ys hm n x hx
      exact ⟨z, by rw [List.getElem?_cons_succ]; exact hz1, hz2⟩

theorem mapMO_getElem?_rev {α β : Type} (f : α → Option β) :
    ∀ (l : List α) (out : List β), mapMO f l = some out →
      ∀ (i : ℕ) (y : β), out[i]? = some y → ∃ x, l[i]? = some x ∧ f x = some y
  | [], out, h, i, y, hy => by
    rw [mapMO] at h
    simp at h
    subst h
    simp at hy
  | a :: xs, out, h, i, y, hy => by
    obtain ⟨z, ys, hfa, hm, rfl⟩ := mapMO_cons_inv f a xs out h
    cases i with
    | zero =>
      rw [List.getElem?_cons_zero] at hy
      obtain rfl := Option.some.inj hy
      exact ⟨a, by simp, hfa⟩
    | succ n =>
      rw [List.getElem?_cons_succ] at hy
      obtain ⟨x, hx1, hx2⟩ := mapMO_getElem?_rev f xs ys hm n y hy
      exact ⟨x, by rw [List.getElem?_cons_succ]; exact hx1, hx2⟩

theorem arrx_inv (arr : List (List ℚ)) (varr : List (List (Option ℚ))) (r : ℚ) (s : ℕ)
    (p : List (List ℚ) × List (List (Option ℚ))) (h : arrx arr varr r s = some p) :
    ∃ rows, mapMO (fun q => distance_gridx r s q.1 q.2) (arr.zip varr) = some rows ∧
      p = (rows.map Prod.fst, rows.map Prod.snd) := by
  rw [arrx] at h
  rcases hm : mapMO (fun q => distance_gridx r s q.1 q.2) (arr.zip varr) with _ | rows
  · rw [hm] at h
    simp at h
  · rw [hm] at h
    simp at h
    exact ⟨rows, hm, h.symm⟩

theorem gridarrayRun_inv (arr : List (List ℚ)) (r : ℚ) (s : ℕ) (G : Gridarray)
    (hG : gridarrayRun arr r s = some G) :
    ∃ p1 p2, arrx arr (mkVimg arr) r s = some p1 ∧
      arry (transposeL arr) (mkVimg (transposeL arr)) r s = some p2 ∧
      G = ⟨p1.1, p2.1, p1.2, p2.2, p1.1⟩ := by
  rw [gridarrayRun] at hG
  rcases h1 : arrx arr (mkVimg arr) r s with _ | p1
  · rw [h1] at hG
    simp at hG
  rcases h2 : arry (transposeL arr) (mkVimg (transposeL arr)) r s with _ | p2
  · rw [h1, h2] at hG
    simp at hG
  · rw [h1, h2] at hG
    simp at hG
    exact ⟨p1, p2, rfl, rfl, hG.symm⟩

theorem mkVimg_getElem? (img : List (List ℚ)) (i : ℕ) :
    (mkVimg img)[i]? =
      (img[i]?).map (fun row => row.map (fun v => if v = 1 then none else some v)) := by
  rw [mkVimg, List.getElem?_map]

/-! ### Per-row facts about the x transform (used at grid level) -/

theorem xline_lengths (r : ℚ) (s : ℕ) (l : List ℚ) (vl : List (Option ℚ))
    (hv : vl.length = l.length) :
    ∀ out, distance_gridx r s l vl = some out →
      out.1.length = l.length ∧ out.2.length = l.length := by
  intro out hout
  rw [distance_gridx_eq] at hout
  obtain ⟨⟨h1, h2⟩, _, _⟩ := foldl_gstep_spec r (-1) 1 (gpairs 0 (boundaries (correct s l)))
    (correct s l, vl) (rangesOK_x s l) (by rw [correct_length]; exact hv)
  obtain rfl := (Option.some.inj hout).symm
  constructor
  · rw [h1, correct_length]
  · rw [h2]
    exact hv

theorem xline_none (r : ℚ) (s : ℕ) (l : List ℚ) (vl : List (Option ℚ))
    (hv : vl.length = l.length) :
    ∀ (out : List ℚ × List (Option ℚ)) (j : ℕ),
      distance_gridx r s l vl = some out → out.2[j]? = some none →
      out.1[j]? = (correct s l)[j]? ∧ vl[j]? = some none := by
  intro out j hout hnone
  rw [distance_gridx_eq] at hout
  obtain rfl := (Option.some.inj hout).symm
  obtain ⟨_, hU, hmem⟩ := foldl_gstep_spec r (-1) 1 (gpairs 0 (boundaries (correct s l)))
    (correct s l, vl) (rangesOK_x s l) (by rw [correct_length]; exact hv)
  have houtside : ∀ p ∈ gpairs 0 (boundaries (correct s l)), j < p.1 ∨ p.2 ≤ j := by
    intro p hp
    by_contra hcon
    push_neg at hcon
    obtain ⟨hs1, hs2⟩ := hmem p hp
    have hj : (sliceOf ((gpairs 0 (boundaries (correct s l))).foldl (gstep r (-1) 1)
        (correct s l, vl)).2 p.1 p.2)[j - p.1]? =
        ((gpairs 0 (boundaries (correct s l))).foldl (gstep r (-1) 1)
          (correct s l, vl)).2[j]? := by
      rw [sliceOf_getElem?, if_pos (by omega)]
      congr 1
      omega
    rw [hs2] at hj
    have := runVec_mem (-1) 1 (p.2 - p.1) none (List.getElem?_mem (hj.trans hnone))
    simp at this
  have hU2 := hU j houtside
  exact ⟨hU2.1, hU2.2.symm.trans hnone⟩

/-! ### Pointwise transport through the transpose -/

theorem forall2_getElem?_right {α β : Type} {R : α → β → Prop} :
    ∀ {l₁ : List α} {l₂ : List β}, List.Forall₂ R l₁ l₂ →
      ∀ (i : ℕ) (y : β), l₂[i]? = some y → ∃ x, l₁[i]? = some x ∧ R x y := by
  intro l₁ l₂ h
  induction h with
  | nil =>
    intro i y hy
    simp at hy
  | cons hab htail ih =>
    intro i y hy
    cases i with
    | zero =>
      rw [List.getElem?_cons_zero] at hy
      obtain rfl := Option.some.inj hy
      exact ⟨_, List.getElem?_cons_zero, hab⟩
    | succ n =>
      rw [List.getElem?_cons_succ] at hy
      obtain ⟨x, hx1, hx2⟩ := ih n y hy
      exact ⟨x, by rw [List.getElem?_cons_succ]; exact hx1, hx2⟩

theorem forall2_of_getElem? {α β : Type} (R : α → β → Prop) :
    ∀ (l₁ : List α) (l₂ : List β), l₁.length = l₂.length →
      (∀ (i : ℕ) (x : α) (y : β), l₁[i]? = some x → l₂[i]? = some y → R x y) →
      List.Forall₂ R l₁ l₂
  | [], [], _, _ => List.Forall₂.nil
  | [], _ :: _, h, _ => by simp at h
  | _ :: _, [], h, _ => by simp at h
  | x :: xs, y :: ys, h, hp => by
    refine List.Forall₂.cons (hp 0 x y List.getElem?_cons_zero List.getElem?_cons_zero) ?_
    refine forall2_of_getElem? R xs ys (by simpa using h) ?_
    intro i a b ha hb
    exact hp (i + 1) a b (by rw [List.getElem?_cons_succ]; exact ha)
      (by rw [List.getElem?_cons_succ]; exact hb)

theorem consInto_rel {α β : Type} {R : α → β → Prop} :
    ∀ {row₁ : List α} {row₂ : List β}, List.Forall₂ R row₁ row₂ →
      ∀ {m₁ : List (List α)} {m₂ : List (List β)},
        List.Forall₂ (List.Forall₂ R) m₁ m₂ →
        List.Forall₂ (List.Forall₂ R) (consInto row₁ m₁) (consInto row₂ m₂) := by
  intro row₁ row₂ h
  induction h with
  | nil =>
    intro m₁ m₂ hm
    exact hm
  | cons hab htail ih =>
    intro m₁ m₂ hm
    cases hm with
    | nil =>
      exact List.Forall₂.cons (List.Forall₂.cons hab List.Forall₂.nil) (ih List.Forall₂.nil)
    | cons hmrow hmtail =>
      exact List.Forall₂.cons (List.Forall₂.cons hab hmrow) (ih hmtail)

/-- The transpose preserves any pointwise relation between two lists of
rows of matching shape, in particular shape itself. -/
theorem transposeL_rel {α β : Type} {R : α → β → Prop} :
    ∀ {m₁ : List (List α)} {m₂ : List (List β)},
      List.Forall₂ (List.Forall₂ R) m₁ m₂ →
      List.Forall₂ (List.Forall₂ R) (transposeL m₁) (transposeL m₂) := by
  intro m₁ m₂ h
  induction h with
  | nil => exact List.Forall₂.nil
  | cons hrow htail ih => exact consInto_rel hrow ih

theorem consInto_length {α : Type} :
    ∀ (row : List α) (m : List (List α)), row.length = m.length →
      (consInto row m).length = m.length
  | [], _, _ => rfl
  | _ :: _, [], h => by simp at h
  | a :: as, mrow :: m, h => by
    show ((a :: mrow) :: consInto as m).length = (mrow :: m).length
    rw [List.length_cons, List.length_cons, consInto_length as m (by simpa using h)]

theorem consInto_mem {α : Type} :
    ∀ (row : List α) (m : List (List α)), row.length = m.length →
      ∀ x ∈ consInto row m, ∃ a mrow, mrow ∈ m ∧ x = a :: mrow
  | [], m, h, x, hx => by
    have hm : m = [] := List.length_eq_zero.mp h.symm
    subst hm
    cases hx
  | _ :: _, [], h, x, hx => by simp at h
  | a :: as, mrow :: m, h, x, hx => by
    have hx2 : x ∈ (a :: mrow) :: consInto as m := hx
    rcases List.mem_cons.mp hx2 with hh | hh
    · exact ⟨a, mrow, List.mem_cons_self mrow m, hh⟩
    · obtain ⟨c, mr, hmr, he⟩ := consInto_mem as m (by simpa using h) x hh
      exact ⟨c, mr, List.mem_cons_of_mem mrow hmr, he⟩

theorem consInto_nil_length {α : Type} :
    ∀ (row : List α), (consInto row ([] : List (List α))).length = row.length
  | [] => rfl
  | a :: as => by
    show ([a] :: consInto as []).length = (a :: as).length
    rw [List.length_cons, List.length_cons, consInto_nil_length as]

theorem consInto_nil_mem {α : Type} :
    ∀ (row : List α) (x : List α), x ∈ consInto row ([] : List (List α)) → ∃ a, x = [a]
  | [], x, hx => by cases hx
  | a :: as, x, hx => by
    have hx2 : x ∈ [a] :: consInto as [] := hx
    rcases List.mem_cons.mp hx2 with hh | hh
    · exact ⟨a, hh⟩
    · exact consInto_nil_mem as x hh

theorem transposeL_length {α : Type} (n : ℕ) :
    ∀ (m : List (List α)), (∀ row ∈ m, row.length = n) → m ≠ [] →
      (transposeL m).length = n
  | [], _, hne => absurd rfl hne
  | row :: rest, hr, _ => by
    show (consInto row (transposeL rest)).length = n
    rcases hrest : rest with _ | ⟨row2, rest2⟩
    · show (consInto row (transposeL ([] : List (List α)))).length = n
      rw [show transposeL ([] : List (List α)) = [] from rfl, consInto_nil_length]
      exact hr row (List.mem_cons_self _ _)
    · subst hrest
      have hIH : (transposeL (row2 :: rest2)).length = n :=
        transposeL_length n (row2 :: rest2)
          (fun x hx => hr x (List.mem_cons_of_mem _ hx)) (by simp)
      rw [consInto_length row _
        (by rw [hIH]; exact hr row (List.mem_cons_self _ _)), hIH]

/-- On a rectangular list of rows, every column produced by the transpose
has the number of rows as its length. -/
theorem transposeL_rect {α : Type} (n : ℕ) :
    ∀ (m : List (List α)), (∀ row ∈ m, row.length = n) →
      ∀ col ∈ transposeL m, col.length = m.length
  | [], _, col, hcol => by cases hcol
  | row :: rest, hr, col, hcol => by
    have hcol2 : col ∈ consInto row (transposeL rest) := hcol
    rcases hrest : rest with _ | ⟨row2, rest2⟩
    · subst hrest
      have hcol3 : col ∈ consInto row (transposeL ([] : List (List α))) := hcol2
      rw [show transposeL ([] : List (List α)) = [] from rfl] at hcol3
      obtain ⟨a, rfl⟩ := consInto_nil_mem row col hcol3
      rfl
    · subst hrest
      have hsub : ∀ x ∈ row2 :: rest2, x.length = n :=
        fun x hx => hr x (List.mem_cons_of_mem _ hx)
      have hlen : (transposeL (row2 :: rest2)).length = n :=
        transposeL_length n _ hsub (by simp)
      obtain ⟨a, mrow, hmr, rfl⟩ := consInto_mem row _
        (by rw [hlen]; exact hr row (List.mem_cons_self _ _)) col hcol2
      have hm := transposeL_rect n (row2 :: rest2) hsub mrow hmr
      rw [List.length_cons, hm]
      simp

theorem getLastD_cons_mem {α : Type} (x : α) (rest : List α) (d : α) :
    (x :: rest).getLastD d ∈ x :: rest := by
  induction rest generalizing x with
  | nil => simp [List.getLastD_eq_getLast?]
  | cons y t ih =>
    have h : (x :: y :: t).getLastD d = (y :: t).getLastD d := by
      rw [List.getLastD_eq_getLast?, List.getLastD_eq_getLast?, List.getLast?_cons_cons]
    rw [h]
    exact List.mem_cons_of_mem x (ih y)

theorem headD_mem {α : Type} (l : List α) (d : α) (h : l ≠ []) : l.headD d ∈ l := by
  cases l with
  | nil => exact absurd rfl h
  | cons a t =>
    show a ∈ a :: t
    exact List.mem_cons_self a t

/-! ### Per-column facts about the y transform (used at grid level) -/

/-- Lengths and untouched-cell behaviour of the y fill stage on a column
whose declared length `ylen` matches its actual length: both output lines
keep the column length, and a cell whose output vector value is the nan
sentinel was written by no stage (top, internal or bottom), so the distance
output keeps the incoming value there and the incoming vector line already
held the sentinel. -/
theorem yline_spec (r : ℚ) (ylen : ℕ) (l : List ℚ) (vl : List (Option ℚ))
    (hv : vl.length = l.length) (hy : ylen = l.length) :
    ∀ out : List ℚ × List (Option ℚ), gridyCore r ylen l vl = some out →
      (out.1.length = l.length ∧ out.2.length = l.length) ∧
      (∀ j : ℕ, out.2[j]? = some none → out.1[j]? = l[j]? ∧ vl[j]? = some none) := by
  intro out hout
  rcases hbs : boundaries l with _ | ⟨b0, tail⟩
  · rw [gridyCore, hbs] at hout
    have hout2 : some (l, vl) = some out := hout
    obtain rfl := (Option.some.inj hout2).symm
    exact ⟨⟨rfl, hv⟩, fun j hj => ⟨rfl, hj⟩⟩
  rcases tail with _ | ⟨b1, rest⟩
  · rw [gridyCore, hbs] at hout
    have hout2 : (none : Option (List ℚ × List (Option ℚ))) = some out := hout
    exact absurd hout2 (by simp)
  have hsor : List.Pairwise (· < ·) (b0 :: b1 :: rest) := by
    rw [← hbs]
    exact boundaries_sorted l
  have hbound : ∀ x ∈ b0 :: b1 :: rest, x + 1 < l.length := by
    intro x hx
    apply boundaries_bound l
    rw [hbs]
    exact hx
  obtain ⟨hh0, hsor1⟩ := List.pairwise_cons.mp hsor
  obtain ⟨hh1, hsor2⟩ := List.pairwise_cons.mp hsor1
  obtain ⟨blast, hlastD⟩ : ∃ c, (b1 :: rest).getLastD b0 = c := ⟨_, rfl⟩
  have hblmem : blast ∈ b1 :: rest := hlastD ▸ getLastD_cons_mem b1 rest b0
  have hb1blast : b1 ≤ blast := by
    rcases List.mem_cons.mp hblmem with h | h
    · omega
    · have := hh1 blast h
      omega
  have hblb : blast + 1 < l.length := hbound blast (by simp [hblmem])
  have hb1b : b1 + 1 < l.length := hbound b1 (by simp)
  have hL1len : (setSlice l 0 (descList (b1 + 1) r)).length = l.length :=
    setSlice_length _ _ _ (by rw [descList_length]; omega)
  have hV1len : (setSlice vl 0 (List.replicate (b1 + 1) (some (-1) : Option ℚ))).length =
      vl.length :=
    setSlice_length _ _ _ (by rw [List.length_replicate, hv]; omega)
  have hrun := scanLoop_eq_foldl r 1 (-1) 1 (b0 :: b1 :: rest) (b0 :: b1 :: rest).length 3
    (setSlice l 0 (descList (b1 + 1) r),
     setSlice vl 0 (List.replicate (b1 + 1) (some (-1)))) (by omega) (by omega)
  have h32 : (3 : ℕ) - 1 = 2 := rfl
  rw [h32, List.drop_succ_cons, List.drop_succ_cons, List.drop_zero] at hrun
  have hok : RangesOK (setSlice l 0 (descList (b1 + 1) r)).length (gpairs 1 rest) := by
    rw [hL1len]
    exact rangesOK_gpairs _ 1 (by omega) rest hsor2
      (fun x hx => hbound x (by simp [hx]))
  obtain ⟨⟨hlen1, hlen2⟩, hUout, hmem⟩ := foldl_gstep_spec r 1 (-1) (gpairs 1 rest)
    (setSlice l 0 (descList (b1 + 1) r),
     setSlice vl 0 (List.replicate (b1 + 1) (some (-1)))) hok
    (by rw [hL1len, hV1len, hv])
  set F := (gpairs 1 rest).foldl (gstep r 1 (-1))
    (setSlice l 0 (descList (b1 + 1) r),
     setSlice vl 0 (List.replicate (b1 + 1) (some (-1)))) with hF
  have hF1len : F.1.length = l.length := by rw [hlen1, hL1len]
  have hF2len : F.2.length = l.length := by rw [hlen2, hV1len, hv]
  have hinb1 : blast + 1 + (ascList (ylen - (blast + 1)) r).length ≤ F.1.length := by
    rw [ascList_length, hF1len]
    omega
  have hinb2 : blast + 1 + (List.replicate (ylen - (blast + 1)) (some 1 : Option ℚ)).length ≤
      F.2.length := by
    rw [List.length_replicate, hF2len]
    omega
  rw [gridyCore_cons_eq r ylen l vl b0 b1 rest hbs, hlastD, hrun] at hout
  have hpair : some (setSlice F.1 (blast + 1) (ascList (ylen - (blast + 1)) r),
      setSlice F.2 (blast + 1) (List.replicate (ylen - (blast + 1)) (some 1))) =
      some out := hout
  have hOE : out = (setSlice F.1 (blast + 1) (ascList (ylen - (blast + 1)) r),
      setSlice F.2 (blast + 1) (List.replicate (ylen - (blast + 1)) (some 1))) :=
    (Option.some.inj hpair).symm
  have hO1 : out.1 = setSlice F.1 (blast + 1) (ascList (ylen - (blast + 1)) r) := by
    rw [hOE]
  have hO2 : out.2 = setSlice F.2 (blast + 1)
      (List.replicate (ylen - (blast + 1)) (some 1)) := by
    rw [hOE]
  refine ⟨⟨?_, ?_⟩, ?_⟩
  · rw [hO1, setSlice_length _ _ _ hinb1, hF1len]
  · rw [hO2, setSlice_length _ _ _ hinb2, hF2len]
  · intro j hj
    rw [hO2] at hj
    have hjbot : j < blast + 1 ∨ ylen ≤ j := by
      by_contra hcon
      push_neg at hcon
      obtain ⟨hc1, hc2⟩ := hcon
      rw [setSlice_getElem? _ _ _ hinb2, if_neg (by omega),
        if_pos (by rw [List.length_replicate]; omega),
        List.getElem?_replicate, if_pos (by omega)] at hj
      exact absurd hj (by simp)
    have hFj2 : F.2[j]? = some none := by
      rw [setSlice_getElem? _ _ _ hinb2] at hj
      rcases hjbot with h | h
      · rwa [if_pos h] at hj
      · rwa [if_neg (by omega), if_neg (by rw [List.length_replicate]; omega)] at hj
    have hjint : ∀ p ∈ gpairs 1 rest, j < p.1 ∨ p.2 ≤ j := by
      intro p hp
      by_contra hcon
      push_neg at hcon
      obtain ⟨hs1, hs2⟩ := hmem p hp
      have hjq : (sliceOf F.2 p.1 p.2)[j - p.1]? = F.2[j]? := by
        rw [sliceOf_getElem?, if_pos (by omega)]
        congr 1
        omega
      rw [hs2] at hjq
      have := runVec_mem 1 (-1) (p.2 - p.1) none (List.getElem?_mem (hjq.trans hFj2))
      simp at this
    have hU := hUout j hjint
    have hU1 : F.1[j]? = (setSlice l 0 (descList (b1 + 1) r))[j]? := hU.1
    have hU2 : F.2[j]? =
        (setSlice vl 0 (List.replicate (b1 + 1) (some (-1) : Option ℚ)))[j]? := hU.2
    have hjtop : b1 + 1 ≤ j := by
      by_contra hcon
      push_neg at hcon
      have hc : (List.replicate (b1 + 1) (some (-1) : Option ℚ))[j]? = some none := by
        rw [← hFj2, hU2,
          setSlice_getElem? _ _ _ (by rw [List.length_replicate, hv]; omega),
          if_neg (by omega), if_pos (by rw [List.length_replicate]; omega)]
        congr 1
      rw [List.getElem?_replicate, if_pos (by omega)] at hc
      exact absurd hc (by simp)
    refine ⟨?_, ?_⟩
    · rw [hO1, setSlice_getElem? _ _ _ hinb1]
      rcases hjbot with h | h
      · rw [if_pos h, hU1,
          setSlice_getElem? _ _ _ (by rw [descList_length]; omega),
          if_neg (by omega), if_neg (by rw [descList_length]; omega)]
      · rw [if_neg (by omega), if_neg (by rw [ascList_length]; omega), hU1,
          setSlice_getElem? _ _ _ (by rw [descList_length]; omega),
          if_neg (by omega), if_neg (by rw [descList_length]; omega)]
    · have hA2out : (setSlice vl 0 (List.replicate (b1 + 1) (some (-1) : Option ℚ)))[j]? =
          vl[j]? := by
        rw [setSlice_getElem? _ _ _ (by rw [List.length_replicate, hv]; omega),
          if_neg (by omega), if_neg (by rw [List.length_replicate]; omega)]
      rw [← hA2out, ← hU2]
      exact hFj2

theorem arry_inv (yarr : List (List ℚ)) (varr : List (List (Option ℚ))) (r : ℚ) (s : ℕ)
    (p : List (List ℚ) × List (List (Option ℚ))) (h : arry yarr varr r s = some p) :
    ∃ rows, mapMO (fun q => distance_gridy r s (yarr.headD []).length q.1 q.2)
        (yarr.zip varr) = some rows ∧
      p = (transposeL (rows.map Prod.fst), transposeL (rows.map Prod.snd)) := by
  rw [arry] at h
  rcases hm : mapMO (fun q => distance_gridy r s (yarr.headD []).length q.1 q.2)
      (yarr.zip varr) with _ | rows
  · rw [hm] at h
    simp at h
  · rw [hm] at h
    simp at h
    exact ⟨rows, hm, h.symm⟩

/-! ### Claim C8: shape and undefined-mask of the distance and vector grids -/

/-- C8 counterexample: the undefined masks of `gridx` and `vector_x` are not
identical.  On the image `[[1,1,1,1,1,1],[1,0,0,0,0,1]]` with GridResolution
1/2, cell (1,0) of `vector_x` holds the nan sentinel (`none`) while `gridx`
holds the plain value `1` there — and the same value `1` appears at cell
(1,2) as a genuinely computed distance whose vector cell is defined
(`some (-1)`), so no value of the distance grid can act as its undefined
sentinel, and the distance grid never holds nan at all. -/
theorem gridmask_claim_false :
    (gridarrayRun [[1, 1, 1, 1, 1, 1], [1, 0, 0, 0, 0, 1]] ((1 : ℚ)/2) 2).map
        Gridarray.gridx =
      some [[1, 1, 1, 1, 1, 1], [1, 1/2, 1, 1, 1/2, 1]] ∧
    (gridarrayRun [[1, 1, 1, 1, 1, 1], [1, 0, 0, 0, 0, 1]] ((1 : ℚ)/2) 2).map
        Gridarray.vector_x =
      some [[none, none, none, none, none, none],
            [none, some (-1), some (-1), some 1, some 1, none]] ∧
    (([[1, 1, 1, 1, 1, 1], [1, 1/2, 1, 1, 1/2, 1]] : List (List ℚ)).getD 1 []).getD 0 0 = 1 ∧
    (([[none, none, none, none, none, none],
       [none, some (-1), some (-1), some 1, some 1, none]] :
        List (List (Option ℚ))).getD 1 []).getD 0 (some 0) = none ∧
    (([[1, 1, 1, 1, 1, 1], [1, 1/2, 1, 1, 1/2, 1]] : List (List ℚ)).getD 1 []).getD 2 0 = 1 ∧
    (([[none, none, none, none, none, none],
       [none, some (-1), some (-1), some 1, some 1, none]] :
        List (List (Option ℚ))).getD 1 []).getD 2 (some 0) = some (-1) := by
  refine ⟨?_, ?_, ?_, ?_, ?_, ?_⟩ <;> with_unfolding_all decide

/-- C8 amended: `gridx` and `vector_x` always share their shape, and every
cell where `vector_x` holds the nan sentinel (`none`) holds the corrected
solid value `1` in `gridx`; on a rectangular image (every numpy 2-d array
is rectangular) the same holds for `gridy` and `vector_y`: they share their
shape, and every cell where `vector_y` holds the nan sentinel holds `1` in
`gridy`.  The masks themselves are not identical because the distance
grids never contain nan. -/
theorem grid_vector_shape_mask (img : List (List ℚ)) (r : ℚ) (s : ℕ) (G : Gridarray)
    (hG : gridarrayRun img r s = some G) :
    G.gridx.length = G.vector_x.length ∧
    (∀ (i : ℕ) (drow : List ℚ) (vrow : List (Option ℚ)),
      G.gridx[i]? = some drow → G.vector_x[i]? = some vrow →
        drow.length = vrow.length) ∧
    (∀ (i : ℕ) (vrow : List (Option ℚ)) (j : ℕ),
      G.vector_x[i]? = some vrow → vrow[j]? = some none →
        ∃ drow, G.gridx[i]? = some drow ∧ drow[j]? = some 1) ∧
    (∀ n : ℕ, (∀ row ∈ img, row.length = n) →
      G.gridy.length = G.vector_y.length ∧
      (∀ (i : ℕ) (drow : List ℚ) (vrow : List (Option ℚ)),
        G.gridy[i]? = some drow → G.vector_y[i]? = some vrow →
          drow.length = vrow.length) ∧
      (∀ (i : ℕ) (vrow : List (Option ℚ)) (j : ℕ),
        G.vector_y[i]? = some vrow → vrow[j]? = some none →
          ∃ drow, G.gridy[i]? = some drow ∧ drow[j]? = some 1)) := by
  obtain ⟨p1, p2, h1, h2, rfl⟩ := gridarrayRun_inv img r s G hG
  obtain ⟨rows, hrows, hp⟩ := arrx_inv img (mkVimg img) r s p1 h1
  have hgx : p1.1 = rows.map Prod.fst := by rw [hp]
  have hvx : p1.2 = rows.map Prod.snd := by rw [hp]
  have hcell : ∀ v : ℚ, (if v = 1 then none else some v) = (none : Option ℚ) → v = 1 := by
    intro v hv
    by_contra hne
    rw [if_neg hne] at hv
    exact absurd hv (by simp)
  have key : ∀ (i : ℕ) (rowi : List ℚ × List (Option ℚ)), rows[i]? = some rowi →
      ∃ li, img[i]? = some li ∧
        distance_gridx r s li (li.map (fun v => if v = 1 then none else some v)) =
          some rowi := by
    intro i rowi hri
    obtain ⟨q, hq, hfq⟩ := mapMO_getElem?_rev _ (img.zip (mkVimg img)) rows hrows i rowi hri
    obtain ⟨hq1, hq2⟩ := List.getElem?_zip_eq_some.mp hq
    rw [mkVimg_getElem?, hq1] at hq2
    simp only [Option.map_some'] at hq2
    have hq2x := Option.some.inj hq2
    refine ⟨q.1, hq1, ?_⟩
    have hfq2 : distance_gridx r s q.1 q.2 = some rowi := hfq
    rwa [← hq2x] at hfq2
  refine ⟨?_, ?_, ?_, ?_⟩
  · show p1.1.length = p1.2.length
    rw [hgx, hvx, List.length_map, List.length_map]
  · intro i drow vrow hd hvr
    rw [show (Gridarray.mk p1.1 p2.1 p1.2 p2.2 p1.1).gridx = p1.1 from rfl, hgx,
      List.getElem?_map] at hd
    rw [show (Gridarray.mk p1.1 p2.1 p1.2 p2.2 p1.1).vector_x = p1.2 from rfl, hvx,
      List.getElem?_map] at hvr
    obtain ⟨rowi, hri, he⟩ := Option.map_eq_some'.mp hd
    obtain ⟨rowi2, hri2, he2⟩ := Option.map_eq_some'.mp hvr
    obtain rfl : rowi = rowi2 := Option.some.inj ((hri.symm).trans hri2)
    obtain ⟨li, _, hdx⟩ := key i rowi hri
    have hlens := xline_lengths r s li (li.map (fun v => if v = 1 then none else some v))
      (by rw [List.length_map]) rowi hdx
    rw [← he, ← he2, hlens.1, hlens.2]
  · intro i vrow j hvr hnone
    rw [show (Gridarray.mk p1.1 p2.1 p1.2 p2.2 p1.1).vector_x = p1.2 from rfl, hvx,
      List.getElem?_map] at hvr
    obtain ⟨rowi, hri, he⟩ := Option.map_eq_some'.mp hvr
    obtain ⟨li, _, hdx⟩ := key i rowi hri
    have hmask := xline_none r s li (li.map (fun v => if v = 1 then none else some v))
      (by rw [List.length_map]) rowi j hdx (by rw [he]; exact hnone)
    obtain ⟨hm1, hm2⟩ := hmask
    rw [List.getElem?_map] at hm2
    obtain ⟨v, hv1, hv2⟩ := Option.map_eq_some'.mp hm2
    have hv1' : li[j]? = some 1 := by
      rw [hv1, hcell v hv2]
    have hone := correct_preserves_one s li j hv1'
    refine ⟨rowi.1, ?_, ?_⟩
    · show p1.1[i]? = some rowi.1
      rw [hgx, List.getElem?_map, hri, Option.map_some']
    · rw [hm1]
      exact hone
  · intro n hn
    obtain ⟨rows2, hrows2, hp2⟩ :=
      arry_inv (transposeL img) (mkVimg (transposeL img)) r s p2 h2
    have hgy : p2.1 = transposeL (rows2.map Prod.fst) := by rw [hp2]
    have hvy : p2.2 = transposeL (rows2.map Prod.snd) := by rw [hp2]
    have hrect : ∀ col ∈ transposeL img, col.length = img.length := transposeL_rect n img hn
    have keyy : ∀ (i : ℕ) (rowi : List ℚ × List (Option ℚ)), rows2[i]? = some rowi →
        ∃ li, (transposeL img)[i]? = some li ∧
          distance_gridy r s ((transposeL img).headD []).length li
            (li.map (fun v => if v = 1 then none else some v)) = some rowi := by
      intro i rowi hri
      obtain ⟨q, hq, hfq⟩ := mapMO_getElem?_rev _
        ((transposeL img).zip (mkVimg (transposeL img))) rows2 hrows2 i rowi hri
      obtain ⟨hq1, hq2⟩ := List.getElem?_zip_eq_some.mp hq
      rw [mkVimg_getElem?, hq1] at hq2
      simp only [Option.map_some'] at hq2
      have hq2x := Option.some.inj hq2
      refine ⟨q.1, hq1, ?_⟩
      have hfq2 : distance_gridy r s ((transposeL img).headD []).length q.1 q.2 =
          some rowi := hfq
      rwa [← hq2x] at hfq2
    have hrel : List.Forall₂ (List.Forall₂ (fun (d : ℚ) (v : Option ℚ) => v = none → d = 1))
        (rows2.map Prod.fst) (rows2.map Prod.snd) := by
      apply forall2_of_getElem?
      · rw [List.length_map, List.length_map]
      · intro i d v hd hv2
        rw [List.getElem?_map] at hd hv2
        obtain ⟨rowi, hri, he⟩ := Option.map_eq_some'.mp hd
        obtain ⟨rowi2, hri2, he2⟩ := Option.map_eq_some'.mp hv2
        obtain rfl : rowi = rowi2 := Option.some.inj ((hri.symm).trans hri2)
        obtain ⟨li, hli, hdy⟩ := keyy i rowi hri
        have hlimem : li ∈ transposeL img := List.getElem?_mem hli
        have hne : transposeL img ≠ [] := by
          intro hnil
          rw [hnil] at hli
          exact absurd hli (by simp)
        have hylen : ((transposeL img).headD []).length = li.length := by
          rw [hrect _ (headD_mem _ [] hne), hrect li hlimem]
        have hyc : gridyCore r ((transposeL img).headD []).length (correct s li)
            (li.map (fun w => if w = 1 then none else some w)) = some rowi := hdy
        have hspec := yline_spec r ((transposeL img).headD []).length (correct s li)
          (li.map (fun w => if w = 1 then none else some w))
          (by rw [List.length_map, correct_length]) (by rw [correct_length]; exact hylen)
          rowi hyc
        rw [← he, ← he2]
        apply forall2_of_getElem?
        · rw [hspec.1.1, hspec.1.2]
        · intro j dj vj hdj hvj hvn
          subst hvn
          obtain ⟨hm1, hm2⟩ := hspec.2 j hvj
          rw [List.getElem?_map] at hm2
          obtain ⟨w, hw1, hw2⟩ := Option.map_eq_some'.mp hm2
          have hone := correct_preserves_one s li j (by rw [hw1, hcell w hw2])
          rw [hm1, hone] at hdj
          exact (Option.some.inj hdj).symm
    have hrelT := transposeL_rel hrel
    refine ⟨?_, ?_, ?_⟩
    · show p2.1.length = p2.2.length
      rw [hgy, hvy]
      exact List.Forall₂.length_eq hrelT
    · intro i drow vrow hd hvr
      rw [show (Gridarray.mk p1.1 p2.1 p1.2 p2.2 p1.1).gridy = p2.1 from rfl, hgy] at hd
      rw [show (Gridarray.mk p1.1 p2.1 p1.2 p2.2 p1.1).vector_y = p2.2 from rfl, hvy] at hvr
      obtain ⟨drow2, hd2, hR⟩ := forall2_getElem?_right hrelT i vrow hvr
      obtain rfl : drow = drow2 := Option.some.inj (hd.symm.trans hd2)
      exact List.Forall₂.length_eq hR
    · intro i vrow j hvr hnone
      rw [show (Gridarray.mk p1.1 p2.1 p1.2 p2.2 p1.1).vector_y = p2.2 from rfl, hvy] at hvr
      obtain ⟨drow, hd2, hR⟩ := forall2_getElem?_right hrelT i vrow hvr
      obtain ⟨dj, hdj, hRd⟩ := forall2_getElem?_right hR j none hnone
      refine ⟨drow, ?_, ?_⟩
      · show p2.1[i]? = some drow
        rw [hgy]
        exact hd2
      · rw [hdj, hRd rfl]

theorem grid_vector_shape_mask_witness :
    ([[1, 1, 1, 1, 1, 1], [1, 1/2, 1, 1, 1/2, 1]] : List (List ℚ)).length =
      ([[none, none, none, none, none, none],
        [none, some (-1), some (-1), some 1, some 1, none]] :
          List (List (Option ℚ))).length ∧
    (∃ drow, ([[1, 1, 1, 1, 1, 1], [1, 1/2, 1, 1, 1/2, 1]] : List (List ℚ))[1]? = some drow ∧
      drow[0]? = some 1) ∧
    ([[1, 1, 1, 1, 1, 1], [1, 1, 1, 1, 1, 1]] : List (List ℚ)).length =
      ([[none, none, none, none, none, none],
        [none, some 0, some 0, some 0, some 0, none]] :
          List (List (Option ℚ))).length ∧
    ∃ drow, ([[1, 1, 1, 1, 1, 1], [1, 1, 1, 1, 1, 1]] : List (List ℚ))[0]? = some drow ∧
      drow[0]? = some 1 := by
  have h := grid_vector_shape_mask [[1, 1, 1, 1, 1, 1], [1, 0, 0, 0, 0, 1]] ((1 : ℚ)/2) 2
    ⟨[[1, 1, 1, 1, 1, 1], [1, 1/2, 1, 1, 1/2, 1]],
     [[1, 1, 1, 1, 1, 1], [1, 1, 1, 1, 1, 1]],
     [[none, none, none, none, none, none],
      [none, some (-1), some (-1), some 1, some 1, none]],
     [[none, none, none, none, none, none],
      [none, some 0, some 0, some 0, some 0, none]],
     [[1, 1, 1, 1, 1, 1], [1, 1/2, 1, 1, 1/2, 1]]⟩
    (by with_unfolding_all decide)
  have hy := h.2.2.2 6 (by with_unfolding_all decide)
  exact ⟨h.1,
    h.2.2.1 1 [none, some (-1), some (-1), some 1, some 1, none] 0
      (by with_unfolding_all decide) (by with_unfolding_all decide),
    hy.1,
    hy.2.2 0 [none, none, none, none, none, none] 0
      (by with_unfolding_all decide) (by with_unfolding_all decide)⟩

/-! ### Claim C9: the caller input array is mutated in place -/

/-- C9 counterexample: constructing `Gridarray` does not leave the input
unchanged.  On `[[1,1,1,1],[1,0,0,1]]` the contents of the caller array after
construction are the x-transformed values, which differ from the input. -/
theorem gridarray_input_claim_false :
    (gridarrayRun [[1, 1, 1, 1], [1, 0, 0, 1]] ((1 : ℚ)/2) 2).map Gridarray.inputAfter =
      some [[1, 1, 1, 1], [1, 1/2, 1/2, 1]] ∧
    ([[1, 1, 1, 1], [1, 1/2, 1/2, 1]] : List (List ℚ)) ≠ [[1, 1, 1, 1], [1, 0, 0, 1]] := by
  refine ⟨?_, ?_⟩ <;> with_unfolding_all decide

/-- C9 amended: constructing `Gridarray` mutates the caller input array in
place: `_arrx` writes each transformed row back, so after construction the
input array holds exactly `gridx` (the x-transformed values); the remaining
outputs are derived from copies taken before the mutation. -/
theorem gridarray_mutates_input (img : List (List ℚ)) (r : ℚ) (s : ℕ) (G : Gridarray)
    (hG : gridarrayRun img r s = some G) :
    G.inputAfter = G.gridx ∧
    (arrx img (mkVimg img) r s).map Prod.fst = some G.gridx := by
  obtain ⟨p1, p2, h1, h2, rfl⟩ := gridarrayRun_inv img r s G hG
  exact ⟨rfl, by rw [h1]; rfl⟩

theorem gridarray_mutates_input_witness :
    ([[1, 1, 1, 1, 1], [1, 1/2, 1, 1/2, 1]] : List (List ℚ)) =
      [[1, 1, 1, 1, 1], [1, 1/2, 1, 1/2, 1]] ∧
    (arrx [[1, 1, 1, 1, 1], [1, 0, 0, 0, 1]] (mkVimg [[1, 1, 1, 1, 1], [1, 0, 0, 0, 1]])
        ((1 : ℚ)/2) 2).map Prod.fst =
      some [[1, 1, 1, 1, 1], [1, 1/2, 1, 1/2, 1]] :=
  gridarray_mutates_input [[1, 1, 1, 1, 1], [1, 0, 0, 0, 1]] ((1 : ℚ)/2) 2
    ⟨[[1, 1, 1, 1, 1], [1, 1/2, 1, 1/2, 1]],
     [[1, 1, 1, 1, 1], [1, 1, 1, 1, 1]],
     [[none, none, none, none, none], [none, some (-1), some (-1), some 1, none]],
     [[none, none, none, none, none], [none, some 0, some 0, some 0, none]],
     [[1, 1, 1, 1, 1], [1, 1/2, 1, 1/2, 1]]⟩
    (by with_unfolding_all decide)

/-! ### Claim C10: the y pass reads a pristine copy of the input -/

/-- C10: `Gridarray.__init__` copies the transposed input (and the y vector
seed) before `_arrx` mutates the input array, so `gridy` and `vector_y`
equal the y transform applied to the original image values, unaffected by
the in-place changes of the x pass. -/
theorem ypass_from_pristine_copy (img : List (List ℚ)) (r : ℚ) (s : ℕ) (G : Gridarray)
    (hG : gridarrayRun img r s = some G) :
    yPass img r s = some (G.gridy, G.vector_y) := by
  obtain ⟨p1, p2, h1, h2, rfl⟩ := gridarrayRun_inv img r s G hG
  rw [yPass, h2]

theorem ypass_from_pristine_copy_witness :
    yPass [[1, 1, 1, 1], [1, 0, 0, 1]] ((1 : ℚ)/2) 2 =
      some ([[1, 1, 1, 1], [1, 1, 1, 1]],
            [[none, none, none, none], [none, some 0, some 0, none]]) :=
  ypass_from_pristine_copy [[1, 1, 1, 1], [1, 0, 0, 1]] ((1 : ℚ)/2) 2
    ⟨[[1, 1, 1, 1], [1, 1/2, 1/2, 1]],
     [[1, 1, 1, 1], [1, 1, 1, 1]],
     [[none, none, none, none], [none, some (-1), some 1, none]],
     [[none, none, none, none], [none, some 0, some 0, none]],
     [[1, 1, 1, 1], [1, 1/2, 1/2, 1]]⟩
    (by with_unfolding_all decide)
